import Mathlib

/-!
Verification of the whisper round-robin time-series database core
(`whisper.go`), via a shallow embedding.

Modelling conventions:
* All Go `uint32` arithmetic is modelled on `Nat` with an explicit
  `% 2^32` (`add32`, `sub32`, `mul32`).  Go's `%` and `/` panic on a zero
  divisor; those operations are modelled by `gmod` / `gdiv`, which return
  an error on a zero divisor.  Go runtime panics and Go `error` return
  values are kept apart: panics abort the whole computation (outer
  `Except`), while `error` values travel as ordinary data (`Option GoErr`),
  exactly as the source threads them.
* The database file is modelled as a total map from byte offsets to
  12-byte point records (`WFile`).  The 16 metadata bytes at offset 0,
  reinterpreted as a point record the way `readPoint(0)` does, are the
  record stored at key 0; archive slots live at their byte offsets.  All
  record reads and writes in the source are seek-then-sized-IO at such
  offsets, and no two distinct keys used by the source denote overlapping
  byte ranges, so a map per offset is a sound model.
* `float64` values are modelled as `ℚ`: no claim settled here depends on
  IEEE-754 rounding, only on which points are read, compared and written.
  The `float32` x-files-factor comparison is likewise modelled over `ℚ`.
-/

set_option autoImplicit false

namespace WhisperGo

/-- 2^32, the modulus of Go `uint32` arithmetic. -/
def U32 : Nat := 4294967296

/-- Go `uint32` addition. -/
def add32 (a b : Nat) : Nat := (a + b) % U32

/-- Go `uint32` subtraction (wraps on underflow). -/
def sub32 (a b : Nat) : Nat := (a % U32 + U32 - b % U32) % U32

/-- Go `uint32` multiplication. -/
def mul32 (a b : Nat) : Nat := (a * b) % U32

/-- Go runtime panics and Go `error` values produced by the source. -/
inductive GoErr where
  | panicDivideByZero
  | panicIndexOutOfRange
  | goError (msg : String)
deriving DecidableEq, Repr

/-- Go integer division: panics when the divisor is zero. -/
def gdiv (a b : Nat) : Except GoErr Nat :=
  if b = 0 then .error .panicDivideByZero else .ok (a / b)

/-- Go integer modulus: panics when the divisor is zero. -/
def gmod (a b : Nat) : Except GoErr Nat :=
  if b = 0 then .error .panicDivideByZero else .ok (a % b)

/-- Reduction of `Except` bind on a success value. -/
theorem except_bind_ok {α β ε : Type} (a : α) (g : α → Except ε β) :
    (Except.ok a >>= g : Except ε β) = g a := rfl

theorem sub32_of_le (a b : Nat) (hba : b ≤ a) (ha : a < U32) :
    sub32 a b = a - b := by
  unfold sub32 U32 at *
  omega

theorem add32_small (a b : Nat) (h : a + b < U32) : add32 a b = a + b := by
  unfold add32 U32 at *
  omega

theorem mul32_small (a b : Nat) (h : a * b < U32) : mul32 a b = a * b := by
  unfold mul32 U32 at *
  omega

/-- A data point: `Timestamp uint32`, `Value float64` (modelled as `ℚ`). -/
structure Point where
  Timestamp : Nat
  Value : ℚ
deriving DecidableEq, Repr

/-- Archive descriptor: byte offset, resolution, ring capacity. -/
structure ArchiveInfo where
  Offset : Nat
  SecondsPerPoint : Nat
  Points : Nat
deriving DecidableEq, Repr

/-- Database metadata.  `XFilesFactor` is `float32` in the source. -/
structure Metadata where
  AggregationMethod : Nat
  MaxRetention : Nat
  XFilesFactor : ℚ
  ArchiveCount : Nat
deriving DecidableEq, Repr

/-- The whisper header: metadata plus the archive descriptor table. -/
structure Header where
  Metadata : Metadata
  Archives : List ArchiveInfo
deriving DecidableEq, Repr

/-- `pointSize = uint32(binary.Size(Point{}))`: 4 + 8 = 12 bytes. -/
def pointSize : Nat := 12

/-- `metadataSize = uint32(binary.Size(Metadata{}))`: 4 * 4 = 16 bytes. -/
def metadataSize : Nat := 16

/-- `archiveSize = uint32(binary.Size(Archive{}))`.  `Archive` is the
slice type `[]Point`, so `binary.Size` of the empty slice is 0 — not the
12 bytes of an `ArchiveInfo` record. -/
def archiveSize : Nat := 0

/-- The number of bytes `binary.Write` emits for one `ArchiveInfo`
record (three `uint32` fields). -/
def archiveInfoEncodedSize : Nat := 12

/-- `(a ArchiveInfo) Retention()`: `SecondsPerPoint * Points` in `uint32`. -/
def ArchiveInfo.Retention32 (a : ArchiveInfo) : Nat :=
  mul32 a.SecondsPerPoint a.Points

/-- `(a ArchiveInfo) size()`: `Points * pointSize` in `uint32`. -/
def ArchiveInfo.size32 (a : ArchiveInfo) : Nat :=
  mul32 a.Points pointSize

/-- `(a ArchiveInfo) end()`: `Offset + size()` in `uint32`. -/
def ArchiveInfo.end32 (a : ArchiveInfo) : Nat :=
  add32 a.Offset a.size32

/-- The database file: a total map from byte offsets to point records. -/
def WFile : Type := Nat → Point

/-- `readPoint(offset)`: one record at the given byte offset. -/
def readPoint (f : WFile) (offset : Nat) : Point := f offset

/-- `readPoints(offset, points)`: `n` consecutive records starting at
`offset` (file positions are `int64`, so the stride does not wrap). -/
def readRecords (f : WFile) (offset n : Nat) : List Point :=
  (List.range n).map (fun i => f (offset + pointSize * i))

/-- An empty (all-zero) file. -/
def zeroFile : WFile := fun _ => ⟨0, 0⟩

/-- The two archives of the spec's concrete scenario: 10s × 60 points at
byte offset 40, 60s × 60 points at byte offset 760. -/
def exArchive0 : ArchiveInfo := ⟨40, 10, 60⟩

def exArchive1 : ArchiveInfo := ⟨760, 60, 60⟩

/-- Sequential record writes starting at a byte offset, one record every
`pointSize` bytes, as a single `binary.Write` of a point slice does. -/
def writeRecords : WFile → Nat → List Point → WFile
  | f, _, [] => f
  | f, offset, p :: rest =>
      writeRecords (fun q => if q = offset then p else f q) (offset + pointSize) rest

/-- `pointOffset(archive, timestamp)` (lines 625-640).  Note the source
reads the base point with `w.readPoint(0)` — absolute file offset 0, the
metadata block — not at `archive.Offset`. -/
def pointOffset (f : WFile) (archive : ArchiveInfo) (timestamp : Nat) :
    Except GoErr Nat := do
  let basePoint := readPoint f 0
  if basePoint.Timestamp = 0 then
    pure archive.Offset
  else
    let timeDistance := sub32 timestamp basePoint.Timestamp
    let pointDistance ← gdiv timeDistance archive.SecondsPerPoint
    let byteDistance := mul32 pointDistance pointSize
    let m ← gmod byteDistance archive.size32
    pure (add32 archive.Offset m)

/-- Modelled from the spec (§4.3), for comparison with `pointOffset`:
"Read the first point at `archive.offset` (the base). If
`base.timestamp == 0` ... return `archive.offset`. Otherwise compute
`byte_distance = ((timestamp − base.timestamp) / seconds_per_point) × 12`,
and return `archive.offset + (byte_distance mod archive.size)`." -/
def pointOffsetSpec (f : WFile) (archive : ArchiveInfo) (timestamp : Nat) : Nat :=
  let base := readPoint f archive.Offset
  if base.Timestamp = 0 then archive.Offset
  else
    let byteDistance := sub32 timestamp base.Timestamp / archive.SecondsPerPoint * pointSize
    archive.Offset + byteDistance % archive.size32

/-- The length in bytes of the file produced by `Create` (lines 202-251).
`Create` writes the 16 metadata bytes, then one 12-byte record per
archive, then either zero-fills `archiveOffsetPointer - headerSize`
bytes (dense) or seeks to the absolute position
`archiveOffsetPointer - headerSize - 1` (whence 0, i.e. from the start
of the file) and writes a single byte (sparse). -/
def createFileLength (archives : List ArchiveInfo) (sparse : Bool) : Nat :=
  let headerSize := add32 metadataSize (mul32 archiveSize archives.length)
  let archiveOffsetPointer :=
    archives.foldl (fun p a => add32 p (mul32 a.Points pointSize)) headerSize
  let writtenHeaderBytes := metadataSize + archiveInfoEncodedSize * archives.length
  if sparse then
    max writtenHeaderBytes (sub32 (sub32 archiveOffsetPointer headerSize) 1 + 1)
  else
    writtenHeaderBytes + sub32 archiveOffsetPointer headerSize

/-- `readPointsBetweenOffsets` (lines 542-568): a contiguous read when
`startOffset < endOffset`, otherwise a wrapped pair of reads. -/
def readPointsBetweenOffsets (f : WFile) (archive : ArchiveInfo)
    (startOffset endOffset : Nat) : List Point :=
  let archiveStart := archive.Offset
  let archiveEnd := archive.end32
  if startOffset < endOffset then
    readRecords f startOffset ((endOffset - startOffset) / pointSize)
  else
    let numEndPoints := sub32 archiveEnd startOffset / pointSize
    let numBeginPoints := sub32 endOffset archiveStart / pointSize
    readRecords f startOffset numEndPoints ++ readRecords f archiveStart numBeginPoints

/-- The slot-collection loop of `propagate` (lines 477-484).  The source
steps the index by 2 (`i += 2`) while advancing `currentInterval` by one
`higher.SecondsPerPoint` per iteration, so only even-index slots are
examined, and slot `2k` is compared against `start + k·step`. -/
def neighborLoop (step : Nat) : List Point → Nat → List Point
  | [], _ => []
  | [p], interval => if p.Timestamp = interval then [p] else []
  | p :: _ :: rest, interval =>
      if p.Timestamp = interval then p :: neighborLoop step rest (add32 interval step)
      else neighborLoop step rest (add32 interval step)

/-- `aggregate(aggregationMethod, points)` (lines 642-673).  LAST, MAX
and MIN index into the list and panic on an empty one; AVERAGE and SUM
fold over it.  The result's timestamp is the zero value 0 (the caller
overwrites it). -/
def aggregate (aggregationMethod : Nat) (points : List Point) :
    Except GoErr Point :=
  if aggregationMethod = 1 then
    .ok ⟨0, (points.foldl (fun v q => v + q.Value) 0) / (points.length : ℚ)⟩
  else if aggregationMethod = 2 then
    .ok ⟨0, points.foldl (fun v q => v + q.Value) 0⟩
  else if aggregationMethod = 3 then
    match points.getLast? with
    | none => .error .panicIndexOutOfRange
    | some p => .ok ⟨0, p.Value⟩
  else if aggregationMethod = 4 then
    match points with
    | [] => .error .panicIndexOutOfRange
    | p :: _ => .ok ⟨0, points.foldl (fun v q => if q.Value > v then q.Value else v) p.Value⟩
  else if aggregationMethod = 5 then
    match points with
    | [] => .error .panicIndexOutOfRange
    | p :: _ => .ok ⟨0, points.foldl (fun v q => if q.Value < v then q.Value else v) p.Value⟩
  else .error (.goError "unknown aggregation function")

/-- `writePoints(archive, points)` (lines 579-622): capacity check (a
returned Go error, not a panic), then `points[0]` (panics on an empty
slice), then the offset of the first point, then either one contiguous
run or a split at `archive.end()` resuming at `archive.Offset`. -/
def writePoints (f : WFile) (archive : ArchiveInfo) (points : List Point) :
    Except GoErr (Option GoErr × WFile) := do
  let nPoints := points.length
  if archive.Points < nPoints then
    pure (some (.goError ("archive can store at most " ++ toString archive.Points ++
      " points, " ++ toString nPoints ++ " supplied")), f)
  else
    match points with
    | [] => .error .panicIndexOutOfRange
    | p0 :: _ => do
      let offset ← pointOffset f archive p0.Timestamp
      let maxPointsFromOffset := sub32 archive.end32 offset / pointSize
      if maxPointsFromOffset < nPoints then
        let f1 := writeRecords f offset (points.take maxPointsFromOffset)
        pure (none, writeRecords f1 archive.Offset (points.drop maxPointsFromOffset))
      else
        pure (none, writeRecords f offset points)

/-- `writePoint(archive, point)` delegates to `writePoints`. -/
def writePoint (f : WFile) (archive : ArchiveInfo) (point : Point) :
    Except GoErr (Option GoErr × WFile) :=
  writePoints f archive [point]

/-- The interval-start and record-reading prefix of `propagate`
(lines 447-475): everything before the slot walk. -/
def propagateRead (f : WFile) (timestamp : Nat) (higher lower : ArchiveInfo) :
    Except GoErr (Nat × List Point) := do
  let m ← gmod timestamp lower.SecondsPerPoint
  let lowerIntervalStart := sub32 timestamp m
  let higherFirstOffset ← pointOffset f higher lowerIntervalStart
  let numHigherPoints ← gdiv lower.SecondsPerPoint higher.SecondsPerPoint
  let higherPointsSize := mul32 numHigherPoints pointSize
  let relativeFirstOffset := sub32 higherFirstOffset higher.Offset
  let relativeLastOffset ← gmod (add32 relativeFirstOffset higherPointsSize) higher.size32
  let higherLastOffset := add32 relativeLastOffset higher.Offset
  pure (lowerIntervalStart, readPointsBetweenOffsets f higher higherFirstOffset higherLastOffset)

/-- `propagate(timestamp, higher, lower)` (lines 447-502).  On an
aggregation error the source executes a bare `return`, so the named
result is its zero value `false` and the error rides in the second
component; on success the source ends with `return true, nil`, which
discards the error from the final `writePoint`. -/
def propagate (meta : Metadata) (f : WFile) (timestamp : Nat)
    (higher lower : ArchiveInfo) : Except GoErr (Bool × Option GoErr × WFile) := do
  let (lowerIntervalStart, points) ← propagateRead f timestamp higher lower
  let neighborPoints := neighborLoop higher.SecondsPerPoint points lowerIntervalStart
  if neighborPoints.length = 0 ∨
      (neighborPoints.length : ℚ) / (points.length : ℚ) < meta.XFilesFactor then
    pure (false, none, f)
  else
    match aggregate meta.AggregationMethod neighborPoints with
    | .error (.goError msg) => pure (false, some (.goError msg), f)
    | .error e => .error e
    | .ok aggregatePoint => do
      let ap : Point := ⟨lowerIntervalStart, aggregatePoint.Value⟩
      let (_, f2) ← writePoint f lower ap
      pure (true, none, f2)

/-- The propagation loop of `Update` (lines 292-303): `err` holds the
(unchecked) result of the initial `writePoint`; for each lower archive
the loop tests `!result` BEFORE `e != nil`, then advances `higher`. -/
def propagateChain (meta : Metadata) (ts : Nat) (err : Option GoErr) :
    ArchiveInfo → List ArchiveInfo → WFile → Except GoErr (Option GoErr × WFile)
  | _, [], f => pure (err, f)
  | higher, lower :: rest, f => do
    let (result, e, f2) ← propagate meta f ts higher lower
    if result = false then
      pure (err, f2)
    else
      match e with
      | some e2 => pure (some e2, f2)
      | none => propagateChain meta ts err lower rest f2

/-- The archive-selection loop of `Update` (lines 277-285).  The loop's
`for i, currentArchive := range` declares a NEW `currentArchive` that
shadows the outer `var currentArchive ArchiveInfo`, so after the loop the
outer variable still holds the zero value `ArchiveInfo{0,0,0}`; only
`lowerArchives` escapes, and since the loop never breaks, the last
archive (whose retention always covers an in-retention point) leaves
`lowerArchives = archives[len:] = []`. -/
def updateSelect (archives : List ArchiveInfo) (diff : Nat) :
    ArchiveInfo × List ArchiveInfo :=
  (⟨0, 0, 0⟩,
    archives.enum.foldl
      (fun lower ia =>
        if ia.2.Retention32 < diff then lower else archives.drop (ia.1 + 1))
      [])

/-- `Update(point)` (lines 269-306).  The staleness guard returns `nil`
with no write on rejection (the source comment reads `// TODO: Return an
error`); `diff >= 0` is vacuous for an unsigned `diff`.  After selection,
the point's timestamp is quantized with `point.Timestamp %
currentArchive.SecondsPerPoint` — a division by zero (Go panic) for the
zero-valued archive `updateSelect` produces. -/
def update (h : Header) (f : WFile) (now : Nat) (point : Point) :
    Except GoErr (Option GoErr × WFile) := do
  let diff := sub32 now point.Timestamp
  if ¬ (diff < h.Metadata.MaxRetention ∧ 0 ≤ diff) then
    pure (none, f)
  else do
    let sel := updateSelect h.Archives diff
    let currentArchive := sel.1
    let lowerArchives := sel.2
    let m ← gmod point.Timestamp currentArchive.SecondsPerPoint
    let qpoint : Point := ⟨sub32 point.Timestamp m, point.Value⟩
    let (werr, f1) ← writePoint f currentArchive qpoint
    propagateChain h.Metadata qpoint.Timestamp werr currentArchive lowerArchives f1

/-- Insertion of an archive into a list sorted by ascending
`SecondsPerPoint`. -/
def insertSpp (a : ArchiveInfo) : List ArchiveInfo → List ArchiveInfo
  | [] => [a]
  | b :: bs =>
      if a.SecondsPerPoint < b.SecondsPerPoint then a :: b :: bs
      else b :: insertSpp a bs

/-- `sort.Sort(bySecondsPerPoint(archives))` (line 161): an unstable
comparison sort with `Less(i, j) = a[i].SecondsPerPoint <
a[j].SecondsPerPoint`, modelled as an insertion sort.  Any comparison
sort yields a list sorted by this key, and no settled claim depends on
the relative order of archives with equal resolution. -/
def sortBySpp : List ArchiveInfo → List ArchiveInfo
  | [] => []
  | a :: rest => insertSpp a (sortBySpp rest)

def msgEmpty : String := "archive list cannot have 0 length"

def msgDup : String := "No archive may be a duplicate of another"

def msgDiv : String := "Higher precision archives must evenly divide in to lower precision"

def msgRet : String :=
  "Lower precision archives must cover a larger time interval than higher precision"

def msgCons : String := "Each archive must be able to consolidate the next"

/-- The per-pair check loop of `ValidateArchiveList` (lines 168-196):
for each adjacent pair (the loop body breaks at the last element) the
four checks run in source order — duplicate, divisibility (a Go `%` that
panics on a zero divisor), retention, consolidation. -/
def validatePairs : List ArchiveInfo → Except GoErr Unit
  | [] => .ok ()
  | [_] => .ok ()
  | a :: b :: rest =>
      if ¬ (a.SecondsPerPoint < b.SecondsPerPoint) then .error (.goError msgDup)
      else do
        let r ← gmod b.SecondsPerPoint a.SecondsPerPoint
        if r ≠ 0 then .error (.goError msgDiv)
        else if ¬ (a.Retention32 < b.Retention32) then .error (.goError msgRet)
        else do
          let q ← gdiv b.SecondsPerPoint a.SecondsPerPoint
          if ¬ (q ≤ a.Points) then .error (.goError msgCons)
          else validatePairs (b :: rest)

/-- `ValidateArchiveList(archives)` (lines 158-199): sort by
`SecondsPerPoint`, reject the empty list, then run the pair checks. -/
def ValidateArchiveList (archives : List ArchiveInfo) : Except GoErr Unit :=
  let sorted := sortBySpp archives
  if sorted.length = 0 then .error (.goError msgEmpty)
  else validatePairs sorted

/-- Rule 2 of the source's doc comment: no archive is a duplicate of
another (no two share a resolution). -/
def RuleNoDuplicate (l : List ArchiveInfo) : Prop :=
  List.Pairwise (fun x y => x.SecondsPerPoint ≠ y.SecondsPerPoint) l

/-- Rule 3: each higher-precision archive's resolution evenly divides
all lower-precision archives' resolutions. -/
def RuleEvenlyDivisible (l : List ArchiveInfo) : Prop :=
  List.Pairwise (fun x y => x.SecondsPerPoint ∣ y.SecondsPerPoint) l

/-- Rule 4: lower-precision archives cover strictly larger time
intervals than higher-precision ones. -/
def RuleRetentionIncreasing (l : List ArchiveInfo) : Prop :=
  List.Pairwise (fun x y => x.Retention32 < y.Retention32) l

/-- Rule 5: each archive has at least enough points to consolidate to
the next archive. -/
def RuleConsolidation (l : List ArchiveInfo) : Prop :=
  List.Chain'
    (fun x y => y.SecondsPerPoint / x.SecondsPerPoint ≤ x.Points) l

/-- The conjunction of the four per-pair checks of `validatePairs`. -/
def okPair (x y : ArchiveInfo) : Prop :=
  x.SecondsPerPoint < y.SecondsPerPoint ∧
    (y.SecondsPerPoint % x.SecondsPerPoint = 0 ∧
      (x.Retention32 < y.Retention32 ∧
        y.SecondsPerPoint / x.SecondsPerPoint ≤ x.Points))

/-- Comparison key used by the archive sort. -/
def sppLe (x y : ArchiveInfo) : Prop :=
  x.SecondsPerPoint ≤ y.SecondsPerPoint

theorem mem_insertSpp (a x : ArchiveInfo) (l : List ArchiveInfo) :
    x ∈ insertSpp a l ↔ x = a ∨ x ∈ l := by
  induction l with
  | nil => simp [insertSpp]
  | cons b bs ih =>
      unfold insertSpp
      by_cases h : a.SecondsPerPoint < b.SecondsPerPoint
      · rw [if_pos h]
        simp only [List.mem_cons]
      · rw [if_neg h]
        simp only [List.mem_cons, ih]
        tauto

theorem mem_sortBySpp (x : ArchiveInfo) (l : List ArchiveInfo) :
    x ∈ sortBySpp l ↔ x ∈ l := by
  induction l with
  | nil => simp [sortBySpp]
  | cons a rest ih => simp [sortBySpp, mem_insertSpp, ih]

theorem sorted_insertSpp (a : ArchiveInfo) (l : List ArchiveInfo)
    (h : List.Pairwise sppLe l) : List.Pairwise sppLe (insertSpp a l) := by
  induction l with
  | nil => simp [insertSpp]
  | cons b bs ih =>
      rw [List.pairwise_cons] at h
      unfold insertSpp
      by_cases hab : a.SecondsPerPoint < b.SecondsPerPoint
      · rw [if_pos hab, List.pairwise_cons]
        refine ⟨?_, List.pairwise_cons.mpr h⟩
        intro x hx
        rcases List.mem_cons.mp hx with hxb | hxbs
        · subst hxb
          exact Nat.le_of_lt hab
        · exact Nat.le_trans (Nat.le_of_lt hab) (h.1 x hxbs)
      · rw [if_neg hab, List.pairwise_cons]
        refine ⟨?_, ih h.2⟩
        intro x hx
        rcases (mem_insertSpp a x bs).mp hx with hxa | hxbs
        · subst hxa
          exact Nat.le_of_not_lt hab
        · exact h.1 x hxbs

theorem sorted_sortBySpp (l : List ArchiveInfo) :
    List.Pairwise sppLe (sortBySpp l) := by
  induction l with
  | nil => exact List.Pairwise.nil
  | cons a rest ih => exact sorted_insertSpp a _ ih

theorem gmod_pos (a b : Nat) (h : 0 < b) : gmod a b = .ok (a % b) := by
  unfold gmod
  rw [if_neg (by omega)]

theorem gdiv_pos (a b : Nat) (h : 0 < b) : gdiv a b = .ok (a / b) := by
  unfold gdiv
  rw [if_neg (by omega)]

/-- Adjacent-pair conditions propagate to all pairs when the relation is
transitive. -/
theorem pairwise_of_chain' {α : Type} {R : α → α → Prop} :
    ∀ l : List α, List.Chain' R l →
      (∀ a b c, R a b → R b c → R a c) → List.Pairwise R l
  | [], _, _ => List.Pairwise.nil
  | [a], _, _ => by simp
  | a :: b :: bs, h, htr => by
      rw [List.chain'_cons] at h
      have hp := pairwise_of_chain' (b :: bs) h.2 htr
      rw [List.pairwise_cons]
      refine ⟨?_, hp⟩
      intro x hx
      rcases List.mem_cons.mp hx with hxb | hxbs
      · subst hxb
        exact h.1
      · exact htr _ _ _ h.1 ((List.pairwise_cons.mp hp).1 x hxbs)

theorem chain'_imp_mem {α : Type} {R S : α → α → Prop} :
    ∀ l : List α, (∀ a ∈ l, ∀ b ∈ l, R a b → S a b) →
      List.Chain' R l → List.Chain' S l
  | [], _, _ => List.chain'_nil
  | [a], _, _ => by simp
  | a :: b :: bs, him, h => by
      rw [List.chain'_cons] at h ⊢
      exact ⟨him a (by simp) b (by simp) h.1,
        chain'_imp_mem (b :: bs)
          (fun x hx y hy => him x (List.mem_cons_of_mem a hx)
            y (List.mem_cons_of_mem a hy)) h.2⟩

theorem chain'_and_iff {α : Type} (P Q : α → α → Prop) :
    ∀ l : List α,
      List.Chain' (fun x y => P x y ∧ Q x y) l ↔
        (List.Chain' P l ∧ List.Chain' Q l)
  | [] => by simp
  | [a] => by simp
  | a :: b :: bs => by
      rw [List.chain'_cons, List.chain'_cons, List.chain'_cons,
        chain'_and_iff P Q (b :: bs)]
      tauto

theorem validatePairs_ok_iff :
    ∀ l : List ArchiveInfo, (∀ a ∈ l, 0 < a.SecondsPerPoint) →
      (validatePairs l = .ok () ↔ List.Chain' okPair l)
  | [], _ => by simp [validatePairs]
  | [a], _ => by simp [validatePairs]
  | a :: b :: bs, hpos => by
      have ha : 0 < a.SecondsPerPoint := hpos a (by simp)
      have ih := validatePairs_ok_iff (b :: bs)
        (fun x hx => hpos x (List.mem_cons_of_mem a hx))
      rw [List.chain'_cons]
      simp only [validatePairs, gmod_pos _ _ ha, gdiv_pos _ _ ha, except_bind_ok]
      constructor
      · intro h
        by_cases h1 : a.SecondsPerPoint < b.SecondsPerPoint
        · rw [if_neg (not_not_intro h1)] at h
          by_cases h2 : b.SecondsPerPoint % a.SecondsPerPoint = 0
          · rw [if_neg (not_not_intro h2)] at h
            by_cases h3 : a.Retention32 < b.Retention32
            · rw [if_neg (not_not_intro h3)] at h
              by_cases h4 : b.SecondsPerPoint / a.SecondsPerPoint ≤ a.Points
              · rw [if_neg (not_not_intro h4)] at h
                exact ⟨⟨h1, h2, h3, h4⟩, ih.mp h⟩
              · rw [if_pos h4] at h
                exact absurd h (by simp)
            · rw [if_pos h3] at h
              exact absurd h (by simp)
          · rw [if_pos h2] at h
            exact absurd h (by simp)
        · rw [if_pos h1] at h
          exact absurd h (by simp)
      · rintro ⟨hok, hch⟩
        rw [if_neg (not_not_intro hok.1), if_neg (not_not_intro hok.2.1),
          if_neg (not_not_intro hok.2.2.1), if_neg (not_not_intro hok.2.2.2)]
        exact ih.mpr hch

/-- Over a sorted list, the adjacent checks of the loop hold exactly
when the four global structural rules hold. -/
theorem chain'_okPair_iff (s : List ArchiveInfo)
    (hsort : List.Pairwise sppLe s) :
    List.Chain' okPair s ↔
      (RuleNoDuplicate s ∧ RuleEvenlyDivisible s ∧
        RuleRetentionIncreasing s ∧ RuleConsolidation s) := by
  constructor
  · intro h
    have h1 : List.Chain' (fun x y : ArchiveInfo =>
        x.SecondsPerPoint < y.SecondsPerPoint) s :=
      chain'_imp_mem s (fun _ _ _ _ hp => hp.1) h
    have h2 : List.Chain' (fun x y : ArchiveInfo =>
        x.SecondsPerPoint ∣ y.SecondsPerPoint) s :=
      chain'_imp_mem s
        (fun _ _ _ _ hp => Nat.dvd_iff_mod_eq_zero.mpr hp.2.1) h
    have h3 : List.Chain' (fun x y : ArchiveInfo =>
        x.Retention32 < y.Retention32) s :=
      chain'_imp_mem s (fun _ _ _ _ hp => hp.2.2.1) h
    have h4 : RuleConsolidation s :=
      chain'_imp_mem s (fun _ _ _ _ hp => hp.2.2.2) h
    refine ⟨?_, ?_, ?_, h4⟩
    · exact (pairwise_of_chain' s h1 (fun _ _ _ hab hbc => Nat.lt_trans hab hbc)).imp
        (fun hp => Nat.ne_of_lt hp)
    · exact pairwise_of_chain' s h2 (fun _ _ _ hab hbc => dvd_trans hab hbc)
    · exact pairwise_of_chain' s h3 (fun _ _ _ hab hbc => Nat.lt_trans hab hbc)
  · rintro ⟨r2, r3, r4, r5⟩
    have c1 : List.Chain' (fun x y : ArchiveInfo =>
        x.SecondsPerPoint < y.SecondsPerPoint) s :=
      List.Pairwise.chain' ((hsort.and r2).imp
        (fun hp => Nat.lt_of_le_of_ne hp.1 hp.2))
    have c2 : List.Chain' (fun x y : ArchiveInfo =>
        y.SecondsPerPoint % x.SecondsPerPoint = 0) s :=
      chain'_imp_mem s (fun _ _ _ _ hp => Nat.dvd_iff_mod_eq_zero.mp hp)
        (List.Pairwise.chain' r3)
    have c3 : List.Chain' (fun x y : ArchiveInfo =>
        x.Retention32 < y.Retention32) s :=
      List.Pairwise.chain' r4
    unfold okPair
    exact (chain'_and_iff _ _ s).mpr ⟨c1,
      (chain'_and_iff _ _ s).mpr ⟨c2, (chain'_and_iff _ _ s).mpr ⟨c3, r5⟩⟩⟩

theorem validatePairs_err_dup :
    ∀ s : List ArchiveInfo, (∀ a ∈ s, 0 < a.SecondsPerPoint) →
      List.Pairwise sppLe s → RuleEvenlyDivisible s →
      RuleRetentionIncreasing s → RuleConsolidation s →
      ¬ RuleNoDuplicate s → validatePairs s = .error (.goError msgDup)
  | [], _, _, _, _, _, hdup => absurd List.Pairwise.nil hdup
  | [a], _, _, _, _, _, hdup => absurd (List.pairwise_singleton _ a) hdup
  | a :: b :: bs, hpos, hsort, hdiv, hret, hcons, hdup => by
      have ha : 0 < a.SecondsPerPoint := hpos a (by simp)
      by_cases hab : a.SecondsPerPoint < b.SecondsPerPoint
      · have hmod : b.SecondsPerPoint % a.SecondsPerPoint = 0 :=
          Nat.dvd_iff_mod_eq_zero.mp ((List.pairwise_cons.mp hdiv).1 b (by simp))
        have hretab : a.Retention32 < b.Retention32 :=
          (List.pairwise_cons.mp hret).1 b (by simp)
        have hconsab : b.SecondsPerPoint / a.SecondsPerPoint ≤ a.Points :=
          (List.chain'_cons.mp hcons).1
        have hdup' : ¬ RuleNoDuplicate (b :: bs) := by
          intro hPW
          apply hdup
          rw [RuleNoDuplicate, List.pairwise_cons]
          refine ⟨?_, hPW⟩
          intro x hx
          have hbx : b.SecondsPerPoint ≤ x.SecondsPerPoint := by
            rcases List.mem_cons.mp hx with hxb | hxbs
            · subst hxb
              exact Nat.le_refl _
            · exact (List.pairwise_cons.mp (List.pairwise_cons.mp hsort).2).1 x hxbs
          omega
        have ih := validatePairs_err_dup (b :: bs)
          (fun x hx => hpos x (List.mem_cons_of_mem a hx))
          (List.pairwise_cons.mp hsort).2
          (List.pairwise_cons.mp hdiv).2 (List.pairwise_cons.mp hret).2
          hcons.tail hdup'
        simp only [validatePairs, gmod_pos _ _ ha, gdiv_pos _ _ ha, except_bind_ok]
        rw [if_neg (not_not_intro hab), if_neg (not_not_intro hmod),
          if_neg (not_not_intro hretab), if_neg (not_not_intro hconsab)]
        exact ih
      · simp only [validatePairs]
        rw [if_pos hab]

theorem validatePairs_err_div :
    ∀ s : List ArchiveInfo, (∀ a ∈ s, 0 < a.SecondsPerPoint) →
      List.Pairwise sppLe s → RuleNoDuplicate s →
      RuleRetentionIncreasing s → RuleConsolidation s →
      ¬ RuleEvenlyDivisible s → validatePairs s = .error (.goError msgDiv)
  | [], _, _, _, _, _, hndiv => absurd List.Pairwise.nil hndiv
  | [a], _, _, _, _, _, hndiv => absurd (List.pairwise_singleton _ a) hndiv
  | a :: b :: bs, hpos, hsort, hdup, hret, hcons, hndiv => by
      have ha : 0 < a.SecondsPerPoint := hpos a (by simp)
      have hab : a.SecondsPerPoint < b.SecondsPerPoint :=
        Nat.lt_of_le_of_ne ((List.pairwise_cons.mp hsort).1 b (by simp))
          ((List.pairwise_cons.mp hdup).1 b (by simp))
      simp only [validatePairs, gmod_pos _ _ ha, gdiv_pos _ _ ha, except_bind_ok]
      rw [if_neg (not_not_intro hab)]
      by_cases hmod : b.SecondsPerPoint % a.SecondsPerPoint = 0
      · have hretab : a.Retention32 < b.Retention32 :=
          (List.pairwise_cons.mp hret).1 b (by simp)
        have hconsab : b.SecondsPerPoint / a.SecondsPerPoint ≤ a.Points :=
          (List.chain'_cons.mp hcons).1
        have hndiv' : ¬ RuleEvenlyDivisible (b :: bs) := by
          intro hPW
          apply hndiv
          rw [RuleEvenlyDivisible, List.pairwise_cons]
          refine ⟨?_, hPW⟩
          intro x hx
          rcases List.mem_cons.mp hx with hxb | hxbs
          · subst hxb
            exact Nat.dvd_iff_mod_eq_zero.mpr hmod
          · exact dvd_trans (Nat.dvd_iff_mod_eq_zero.mpr hmod)
              ((List.pairwise_cons.mp hPW).1 x hxbs)
        have ih := validatePairs_err_div (b :: bs)
          (fun x hx => hpos x (List.mem_cons_of_mem a hx))
          (List.pairwise_cons.mp hsort).2
          (List.pairwise_cons.mp hdup).2 (List.pairwise_cons.mp hret).2
          hcons.tail hndiv'
        rw [if_neg (not_not_intro hmod), if_neg (not_not_intro hretab),
          if_neg (not_not_intro hconsab)]
        exact ih
      · rw [if_pos hmod]

theorem validatePairs_err_ret :
    ∀ s : List ArchiveInfo, (∀ a ∈ s, 0 < a.SecondsPerPoint) →
      List.Pairwise sppLe s → RuleNoDuplicate s →
      RuleEvenlyDivisible s → RuleConsolidation s →
      ¬ RuleRetentionIncreasing s → validatePairs s = .error (.goError msgRet)
  | [], _, _, _, _, _, hnret => absurd List.Pairwise.nil hnret
  | [a], _, _, _, _, _, hnret => absurd (List.pairwise_singleton _ a) hnret
  | a :: b :: bs, hpos, hsort, hdup, hdiv, hcons, hnret => by
      have ha : 0 < a.SecondsPerPoint := hpos a (by simp)
      have hab : a.SecondsPerPoint < b.SecondsPerPoint :=
        Nat.lt_of_le_of_ne ((List.pairwise_cons.mp hsort).1 b (by simp))
          ((List.pairwise_cons.mp hdup).1 b (by simp))
      have hmod : b.SecondsPerPoint % a.SecondsPerPoint = 0 :=
        Nat.dvd_iff_mod_eq_zero.mp ((List.pairwise_cons.mp hdiv).1 b (by simp))
      simp only [validatePairs, gmod_pos _ _ ha, gdiv_pos _ _ ha, except_bind_ok]
      rw [if_neg (not_not_intro hab), if_neg (not_not_intro hmod)]
      by_cases hretab : a.Retention32 < b.Retention32
      · have hconsab : b.SecondsPerPoint / a.SecondsPerPoint ≤ a.Points :=
          (List.chain'_cons.mp hcons).1
        have hnret' : ¬ RuleRetentionIncreasing (b :: bs) := by
          intro hPW
          apply hnret
          rw [RuleRetentionIncreasing, List.pairwise_cons]
          refine ⟨?_, hPW⟩
          intro x hx
          rcases List.mem_cons.mp hx with hxb | hxbs
          · subst hxb
            exact hretab
          · exact Nat.lt_trans hretab ((List.pairwise_cons.mp hPW).1 x hxbs)
        have ih := validatePairs_err_ret (b :: bs)
          (fun x hx => hpos x (List.mem_cons_of_mem a hx))
          (List.pairwise_cons.mp hsort).2
          (List.pairwise_cons.mp hdup).2 (List.pairwise_cons.mp hdiv).2
          hcons.tail hnret'
        rw [if_neg (not_not_intro hretab), if_neg (not_not_intro hconsab)]
        exact ih
      · rw [if_pos hretab]

theorem validatePairs_err_cons :
    ∀ s : List ArchiveInfo, (∀ a ∈ s, 0 < a.SecondsPerPoint) →
      List.Pairwise sppLe s → RuleNoDuplicate s →
      RuleEvenlyDivisible s → RuleRetentionIncreasing s →
      ¬ RuleConsolidation s → validatePairs s = .error (.goError msgCons)
  | [], _, _, _, _, _, hncons => absurd List.chain'_nil hncons
  | [a], _, _, _, _, _, hncons => absurd (List.chain'_singleton a) hncons
  | a :: b :: bs, hpos, hsort, hdup, hdiv, hret, hncons => by
      have ha : 0 < a.SecondsPerPoint := hpos a (by simp)
      have hab : a.SecondsPerPoint < b.SecondsPerPoint :=
        Nat.lt_of_le_of_ne ((List.pairwise_cons.mp hsort).1 b (by simp))
          ((List.pairwise_cons.mp hdup).1 b (by simp))
      have hmod : b.SecondsPerPoint % a.SecondsPerPoint = 0 :=
        Nat.dvd_iff_mod_eq_zero.mp ((List.pairwise_cons.mp hdiv).1 b (by simp))
      have hretab : a.Retention32 < b.Retention32 :=
        (List.pairwise_cons.mp hret).1 b (by simp)
      simp only [validatePairs, gmod_pos _ _ ha, gdiv_pos _ _ ha, except_bind_ok]
      rw [if_neg (not_not_intro hab), if_neg (not_not_intro hmod),
        if_neg (not_not_intro hretab)]
      by_cases hconsab : b.SecondsPerPoint / a.SecondsPerPoint ≤ a.Points
      · have hncons' : ¬ RuleConsolidation (b :: bs) := fun ht =>
          hncons (List.chain'_cons.mpr ⟨hconsab, ht⟩)
        have ih := validatePairs_err_cons (b :: bs)
          (fun x hx => hpos x (List.mem_cons_of_mem a hx))
          (List.pairwise_cons.mp hsort).2
          (List.pairwise_cons.mp hdup).2 (List.pairwise_cons.mp hdiv).2
          (List.pairwise_cons.mp hret).2 hncons'
        rw [if_neg (not_not_intro hconsab)]
        exact ih
      · rw [if_pos hconsab]

/-- C8: after sorting, `ValidateArchiveList` accepts exactly the lists
satisfying the five structural rules (rule 1 is non-emptiness), and a
list violating a single rule — the others holding — is rejected with
that rule's error.  The hypothesis restricts to archives with nonzero
resolution: the Go `%` in check 3 panics on a zero divisor. -/
theorem validateArchiveList_correct (l : List ArchiveInfo)
    (hpos : ∀ a ∈ l, 0 < a.SecondsPerPoint) :
    (ValidateArchiveList l = .ok () ↔
      (sortBySpp l ≠ [] ∧ RuleNoDuplicate (sortBySpp l) ∧
        RuleEvenlyDivisible (sortBySpp l) ∧
        RuleRetentionIncreasing (sortBySpp l) ∧ RuleConsolidation (sortBySpp l))) ∧
    (sortBySpp l = [] → ValidateArchiveList l = .error (.goError msgEmpty)) ∧
    (¬ RuleNoDuplicate (sortBySpp l) → RuleEvenlyDivisible (sortBySpp l) →
      RuleRetentionIncreasing (sortBySpp l) → RuleConsolidation (sortBySpp l) →
      ValidateArchiveList l = .error (.goError msgDup)) ∧
    (RuleNoDuplicate (sortBySpp l) → ¬ RuleEvenlyDivisible (sortBySpp l) →
      RuleRetentionIncreasing (sortBySpp l) → RuleConsolidation (sortBySpp l) →
      ValidateArchiveList l = .error (.goError msgDiv)) ∧
    (RuleNoDuplicate (sortBySpp l) → RuleEvenlyDivisible (sortBySpp l) →
      ¬ RuleRetentionIncreasing (sortBySpp l) → RuleConsolidation (sortBySpp l) →
      ValidateArchiveList l = .error (.goError msgRet)) ∧
    (RuleNoDuplicate (sortBySpp l) → RuleEvenlyDivisible (sortBySpp l) →
      RuleRetentionIncreasing (sortBySpp l) → ¬ RuleConsolidation (sortBySpp l) →
      ValidateArchiveList l = .error (.goError msgCons)) := by
  have hpos' : ∀ a ∈ sortBySpp l, 0 < a.SecondsPerPoint :=
    fun a ha => hpos a ((mem_sortBySpp a l).mp ha)
  have hsort := sorted_sortBySpp l
  have hnonempty : ∀ P : Prop, (sortBySpp l = [] → P) →
      (sortBySpp l ≠ [] → ValidateArchiveList l = validatePairs (sortBySpp l)) := by
    intro _ _ hne
    unfold ValidateArchiveList
    rw [if_neg (by simpa using hne)]
  refine ⟨?_, ?_, ?_, ?_, ?_, ?_⟩
  · by_cases hnil : sortBySpp l = []
    · refine iff_of_false ?_ (fun hr => hr.1 hnil)
      unfold ValidateArchiveList
      rw [if_pos (by simp [hnil])]
      simp
    · rw [hnonempty True (fun _ => trivial) hnil,
        validatePairs_ok_iff _ hpos', chain'_okPair_iff _ hsort]
      simp [hnil]
  · intro hnil
    unfold ValidateArchiveList
    rw [if_pos (by simp [hnil])]
  · intro hndup hdiv hret hcons
    have hnil : sortBySpp l ≠ [] := by
      intro h
      rw [h] at hndup
      exact hndup List.Pairwise.nil
    rw [hnonempty True (fun _ => trivial) hnil]
    exact validatePairs_err_dup _ hpos' hsort hdiv hret hcons hndup
  · intro hdup hndiv hret hcons
    have hnil : sortBySpp l ≠ [] := by
      intro h
      rw [h] at hndiv
      exact hndiv List.Pairwise.nil
    rw [hnonempty True (fun _ => trivial) hnil]
    exact validatePairs_err_div _ hpos' hsort hdup hret hcons hndiv
  · intro hdup hdiv hnret hcons
    have hnil : sortBySpp l ≠ [] := by
      intro h
      rw [h] at hnret
      exact hnret List.Pairwise.nil
    rw [hnonempty True (fun _ => trivial) hnil]
    exact validatePairs_err_ret _ hpos' hsort hdup hdiv hcons hnret
  · intro hdup hdiv hret hncons
    have hnil : sortBySpp l ≠ [] := by
      intro h
      rw [h] at hncons
      exact hncons List.chain'_nil
    rw [hnonempty True (fun _ => trivial) hnil]
    exact validatePairs_err_cons _ hpos' hsort hdup hdiv hret hncons

/-- The spec's two-archive schema, deliberately given unsorted. -/
def exArchivesC8 : List ArchiveInfo := [⟨0, 60, 60⟩, ⟨0, 10, 60⟩]

/-- Witness for `validateArchiveList_correct` at a concrete unsorted
valid schema. -/
theorem validateArchiveList_correct_witness :
    (∀ a ∈ exArchivesC8, 0 < a.SecondsPerPoint) ∧
    (ValidateArchiveList exArchivesC8 = .ok () ↔
      (sortBySpp exArchivesC8 ≠ [] ∧ RuleNoDuplicate (sortBySpp exArchivesC8) ∧
        RuleEvenlyDivisible (sortBySpp exArchivesC8) ∧
        RuleRetentionIncreasing (sortBySpp exArchivesC8) ∧
        RuleConsolidation (sortBySpp exArchivesC8))) :=
  ⟨by decide, (validateArchiveList_correct exArchivesC8 (by decide)).1⟩

/-- Insertion of a point into a list sorted by descending timestamp. -/
def insertDesc (p : Point) : List Point → List Point
  | [] => [p]
  | q :: qs =>
      if q.Timestamp < p.Timestamp then p :: q :: qs else q :: insertDesc p qs

/-- `sort.Sort(reverseArchive{currentPoints})` (lines 323 and 343): an
unstable sort by descending timestamp, modelled as an insertion sort; no
settled claim depends on the ordering of points with equal timestamps. -/
def sortDesc : List Point → List Point
  | [] => []
  | p :: ps => insertDesc p (sortDesc ps)

/-- The inner `for currentArchive.Retention() < age` loop of
`UpdateMany` (lines 321-337): flush the accumulated bucket (sorted,
non-empty only) to the archive being left, then advance; when the
archives run out, signal `break PointLoop` by returning `none`. -/
def umAdvance (age : Nat) :
    ArchiveInfo → List ArchiveInfo → List Point →
      List (ArchiveInfo × List Point) →
      Option (ArchiveInfo × List ArchiveInfo) × List Point ×
        List (ArchiveInfo × List Point)
  | a, [], cur, acc =>
      if a.Retention32 < age then
        if cur.length > 0 then (none, [], acc ++ [(a, sortDesc cur)])
        else (none, cur, acc)
      else (some (a, []), cur, acc)
  | a, b :: rest2, cur, acc =>
      if a.Retention32 < age then
        if cur.length > 0 then umAdvance age b rest2 [] (acc ++ [(a, sortDesc cur)])
        else umAdvance age b rest2 cur acc
      else (some (a, b :: rest2), cur, acc)

/-- The outer point loop of `UpdateMany` (lines 317-345), recording each
`archiveUpdateMany(archive, sortedBucket)` invocation (the source
discards its error) instead of performing it.  On `break PointLoop` the
remaining points are dropped and no final flush happens. -/
def umMain (now : Nat) :
    List Point → ArchiveInfo → List ArchiveInfo → List Point →
      List (ArchiveInfo × List Point) → List (ArchiveInfo × List Point)
  | [], a, _, cur, acc =>
      if cur.length > 0 then acc ++ [(a, sortDesc cur)] else acc
  | p :: ps, a, rest, cur, acc =>
      match umAdvance (sub32 now p.Timestamp) a rest cur acc with
      | (none, _, acc2) => acc2
      | (some (a2, rest2), cur2, acc2) => umMain now ps a2 rest2 (cur2 ++ [p]) acc2

/-- `UpdateMany(points)` (lines 309-348) as the partition of a batch
into per-archive flushes.  `&w.Header.Archives[0]` panics on an empty
archive table. -/
def updateManyFlushes (archives : List ArchiveInfo) (now : Nat)
    (points : List Point) : Except GoErr (List (ArchiveInfo × List Point)) :=
  match archives with
  | [] => .error .panicIndexOutOfRange
  | a :: rest => .ok (umMain now points a rest [] [])

/-- The finest archive covering a given age: the first entry of the
(resolution-sorted) archive table whose retention reaches the age. -/
def finestCovering (archives : List ArchiveInfo) (age : Nat) :
    Option ArchiveInfo :=
  archives.find? (fun a => decide (age ≤ a.Retention32))

theorem mem_insertDesc (p x : Point) (l : List Point) :
    x ∈ insertDesc p l ↔ x = p ∨ x ∈ l := by
  induction l with
  | nil => simp [insertDesc]
  | cons q qs ih =>
      unfold insertDesc
      by_cases h : q.Timestamp < p.Timestamp
      · rw [if_pos h]
        simp only [List.mem_cons]
      · rw [if_neg h]
        simp only [List.mem_cons, ih]
        tauto

theorem mem_sortDesc (x : Point) (l : List Point) :
    x ∈ sortDesc l ↔ x ∈ l := by
  induction l with
  | nil => simp [sortDesc]
  | cons p ps ih => simp [sortDesc, mem_insertDesc, ih]

/-- `find?` over a decomposition whose prefix entirely fails the
predicate and whose pivot satisfies it. -/
theorem find?_pre_first {α : Type} (p : α → Bool) :
    ∀ (pre : List α) (a : α) (rs : List α),
      (∀ b ∈ pre, ¬ p b = true) → p a = true →
      List.find? p (pre ++ a :: rs) = some a
  | [], a, rs, _, hpa => by
      rw [List.nil_append]
      exact List.find?_cons_of_pos _ hpa
  | b :: pre2, a, rs, hpre, hpa => by
      rw [List.cons_append, List.find?_cons_of_neg _ (hpre b (by simp))]
      exact find?_pre_first p pre2 a rs (fun c hc => hpre c (by simp [hc])) hpa

theorem acc_filter_none (acc : List (ArchiveInfo × List Point)) (p : Point)
    (h : ∀ ab ∈ acc, p ∉ ab.2) :
    acc.filter (fun cd => decide (p ∈ cd.2)) = [] := by
  rw [List.filter_eq_nil_iff]
  intro cd hcd
  simpa using h cd hcd

/-- In a list of pairwise point-disjoint buckets, filtering by
membership of a point contained in one bucket selects exactly it. -/
theorem acc_filter_unique :
    ∀ (acc : List (ArchiveInfo × List Point)) (p : Point)
      (ab : ArchiveInfo × List Point),
      List.Pairwise (fun x y => ∀ q, q ∈ x.2 → q ∉ y.2) acc →
      ab ∈ acc → p ∈ ab.2 →
      (acc.filter (fun cd => decide (p ∈ cd.2))).map Prod.fst = [ab.1]
  | [], _, _, _, hmem, _ => absurd hmem (by simp)
  | h :: t, p, ab, hpw, hmem, hp => by
      rw [List.pairwise_cons] at hpw
      by_cases hph : p ∈ h.2
      · have hab : ab.1 = h.1 := by
          rcases List.mem_cons.mp hmem with heq | habt
          · rw [heq]
          · exact absurd hp (hpw.1 ab habt p hph)
        have htail : t.filter (fun cd => decide (p ∈ cd.2)) = [] :=
          acc_filter_none t p (fun cd hcd => hpw.1 cd hcd p hph)
        rw [List.filter_cons_of_pos (by simpa using hph), htail]
        simp [hab]
      · have habt : ab ∈ t := by
          rcases List.mem_cons.mp hmem with heq | habt
          · rw [← heq] at hph
            exact absurd hp hph
          · exact habt
        rw [List.filter_cons_of_neg (by simpa using hph)]
        exact acc_filter_unique t p ab hpw.2 habt hp

/-- Behaviour of one advance step: a prefix `passed` of the archive
pointer's suffix is skipped, every skipped archive having retention
below the age; the bucket is flushed (sorted) to the first skipped
archive when both are non-empty; the pointer lands on the first archive
whose retention covers the age, or the walk falls off the end. -/
theorem umAdvance_spec :
    ∀ (rs : List ArchiveInfo) (a : ArchiveInfo) (cur : List Point)
      (acc : List (ArchiveInfo × List Point)) (age : Nat),
      ∃ passed : List ArchiveInfo,
        (∀ b ∈ passed, b.Retention32 < age) ∧
        ((umAdvance age a rs cur acc).2.2 =
          acc ++ (if passed = [] ∨ cur = [] then [] else [(a, sortDesc cur)])) ∧
        ((umAdvance age a rs cur acc).2.1 = if passed = [] then cur else []) ∧
        (match (umAdvance age a rs cur acc).1 with
         | none => a :: rs = passed
         | some (a2, rs2) => a :: rs = passed ++ a2 :: rs2 ∧ age ≤ a2.Retention32) := by
  intro rs
  induction rs with
  | nil =>
      intro a cur acc age
      unfold umAdvance
      by_cases hlt : a.Retention32 < age
      · rw [if_pos hlt]
        by_cases hcur : cur.length > 0
        · rw [if_pos hcur]
          have hcne : cur ≠ [] := by
            intro h
            rw [h] at hcur
            simp at hcur
          exact ⟨[a], by simpa using hlt, by simp [hcne], by simp, by simp⟩
        · rw [if_neg hcur]
          have hce : cur = [] := by
            have : cur.length = 0 := by omega
            exact List.length_eq_zero.mp this
          exact ⟨[a], by simpa using hlt, by simp [hce], by simp [hce], by simp⟩
      · rw [if_neg hlt]
        exact ⟨[], by simp, by simp, by simp, by simp [Nat.le_of_not_lt hlt]⟩
  | cons b rest2 ih =>
      intro a cur acc age
      unfold umAdvance
      by_cases hlt : a.Retention32 < age
      · rw [if_pos hlt]
        by_cases hcur : cur.length > 0
        · rw [if_pos hcur]
          obtain ⟨passed2, hp2, hacc2, hcur2, hm2⟩ :=
            ih b [] (acc ++ [(a, sortDesc cur)]) age
          have hcne : cur ≠ [] := by
            intro h
            rw [h] at hcur
            simp at hcur
          refine ⟨a :: passed2, ?_, ?_, ?_, ?_⟩
          · intro c hc
            rcases List.mem_cons.mp hc with heq | hcp
            · rw [heq]
              exact hlt
            · exact hp2 c hcp
          · rw [hacc2]
            simp [hcne]
          · rw [hcur2]
            simp
          · cases hm : (umAdvance age b rest2 [] (acc ++ [(a, sortDesc cur)])).1 with
            | none =>
                rw [hm] at hm2
                simp only at hm2 ⊢
                rw [← hm2]
            | some val =>
                rw [hm] at hm2
                rcases val with ⟨a2, rs2⟩
                simp only at hm2 ⊢
                exact ⟨by rw [hm2.1, List.cons_append], hm2.2⟩
        · rw [if_neg hcur]
          have hce : cur = [] := by
            have : cur.length = 0 := by omega
            exact List.length_eq_zero.mp this
          obtain ⟨passed2, hp2, hacc2, hcur2, hm2⟩ := ih b cur acc age
          refine ⟨a :: passed2, ?_, ?_, ?_, ?_⟩
          · intro c hc
            rcases List.mem_cons.mp hc with heq | hcp
            · rw [heq]
              exact hlt
            · exact hp2 c hcp
          · rw [hacc2]
            simp [hce]
          · rw [hcur2]
            simp [hce]
          · cases hm : (umAdvance age b rest2 cur acc).1 with
            | none =>
                rw [hm] at hm2
                simp only at hm2 ⊢
                rw [← hm2]
            | some val =>
                rw [hm] at hm2
                rcases val with ⟨a2, rs2⟩
                simp only at hm2 ⊢
                exact ⟨by rw [hm2.1, List.cons_append], hm2.2⟩
      · rw [if_neg hlt]
        exact ⟨[], by simp, by simp, by simp, by simp [Nat.le_of_not_lt hlt]⟩

/-- Invariant-carrying induction behind the batch-partition claim: with
the archive table split as `pre ++ a :: rs` (every passed archive too
short for every remaining point), a bucket holding exactly points whose
finest archive is `a`, and an accumulator of disjoint, correctly-aimed
flushes, every point in flight ends up flushed exactly once, to the
first archive covering its age — or nowhere, when no archive covers it. -/
theorem umMain_spec (now : Nat) (full : List ArchiveInfo) :
    ∀ (pts : List Point) (a : ArchiveInfo) (rs : List ArchiveInfo)
      (cur : List Point) (acc : List (ArchiveInfo × List Point))
      (pre : List ArchiveInfo),
      full = pre ++ a :: rs →
      List.Pairwise (fun p q : Point => q.Timestamp ≤ p.Timestamp) pts →
      (∀ p ∈ pts, p.Timestamp ≤ now) →
      now < U32 →
      (∀ b ∈ pre, ∀ p ∈ pts, b.Retention32 < now - p.Timestamp) →
      (∀ q ∈ cur, q.Timestamp ≤ now ∧
        (∀ b ∈ pre, b.Retention32 < now - q.Timestamp) ∧
        now - q.Timestamp ≤ a.Retention32) →
      (∀ q ∈ cur, ∀ p ∈ pts, now - q.Timestamp ≤ now - p.Timestamp) →
      (∀ ab ∈ acc, ∀ q ∈ ab.2,
        finestCovering full (now - q.Timestamp) = some ab.1) →
      (∀ p ∈ pts, ∀ ab ∈ acc, p ∉ ab.2) →
      (∀ q ∈ cur, ∀ ab ∈ acc, q ∉ ab.2) →
      List.Pairwise (fun ab1 ab2 => ∀ q, q ∈ ab1.2 → q ∉ ab2.2) acc →
      ∀ p : Point, (p ∈ pts ∨ p ∈ cur ∨ ∃ ab ∈ acc, p ∈ ab.2) →
        (match finestCovering full (now - p.Timestamp) with
         | some ar => ((umMain now pts a rs cur acc).filter
             (fun ab => decide (p ∈ ab.2))).map Prod.fst = [ar]
         | none => ∀ ab ∈ umMain now pts a rs cur acc, p ∉ ab.2) := by
  intro pts
  induction pts with
  | nil =>
      intro a rs cur acc pre hfull _ _ _ _ hcur _ hD1 _ hD4 hD5 p hscope
      by_cases hc : cur.length > 0
      · have humain : umMain now [] a rs cur acc = acc ++ [(a, sortDesc cur)] := by
          unfold umMain
          rw [if_pos hc]
        rcases hscope with hp | hp | ⟨ab, hab, hp⟩
        · simp at hp
        · have hfin : finestCovering full (now - p.Timestamp) = some a := by
            rw [hfull]
            unfold finestCovering
            apply find?_pre_first
            · intro b hb
              simp only [decide_eq_true_eq]
              have := (hcur p hp).2.1 b hb
              omega
            · exact decide_eq_true ((hcur p hp).2.2)
          rw [hfin]
          simp only
          rw [humain, List.filter_append, acc_filter_none acc p (hD4 p hp)]
          simp [(mem_sortDesc p cur).mpr hp]
        · have hfin := hD1 ab hab p hp
          rw [hfin]
          simp only
          have hnotin : p ∉ sortDesc cur := by
            intro hpc
            exact hD4 p ((mem_sortDesc p cur).mp hpc) ab hab hp
          have hsingle : ([(a, sortDesc cur)].filter
              (fun cd => decide (p ∈ cd.2))) = [] := by
            simp [hnotin]
          rw [humain, List.filter_append, hsingle, List.append_nil]
          exact acc_filter_unique acc p ab hD5 hab hp
      · have humain : umMain now [] a rs cur acc = acc := by
          unfold umMain
          rw [if_neg hc]
        have hce : cur = [] := by
          have : cur.length = 0 := by omega
          exact List.length_eq_zero.mp this
        rcases hscope with hp | hp | ⟨ab, hab, hp⟩
        · simp at hp
        · rw [hce] at hp
          simp at hp
        · have hfin := hD1 ab hab p hp
          rw [hfin]
          simp only
          rw [humain]
          exact acc_filter_unique acc p ab hD5 hab hp
  | cons p0 ps ih =>
      intro a rs cur acc pre hfull hsortPW hpast hnow hpre hcur hcurage hD1 hD2 hD4 hD5 p hscope
      have hp0now : p0.Timestamp ≤ now := hpast p0 (by simp)
      have hage0 : sub32 now p0.Timestamp = now - p0.Timestamp :=
        sub32_of_le now p0.Timestamp hp0now hnow
      obtain ⟨passed, hpassed, hacc2, hcur2, hmatch⟩ :=
        umAdvance_spec rs a cur acc (sub32 now p0.Timestamp)
      rcases htriple : umAdvance (sub32 now p0.Timestamp) a rs cur acc with ⟨o, cur2, acc2⟩
      rw [htriple] at hacc2 hcur2 hmatch
      simp only at hacc2 hcur2 hmatch
      rw [hage0] at hpassed hmatch
      have hagele : ∀ p' ∈ ps, now - p0.Timestamp ≤ now - p'.Timestamp := by
        intro p' hp'
        have h1 := (List.pairwise_cons.mp hsortPW).1 p' hp'
        have h2 := hpast p' (List.mem_cons_of_mem p0 hp')
        omega
      cases o with
      | none =>
          simp only at hmatch
          have humain : umMain now (p0 :: ps) a rs cur acc = acc2 := by
            unfold umMain
            rw [htriple]
          have hallfail : ∀ b ∈ full, b.Retention32 < now - p0.Timestamp := by
            intro b hb
            rw [hfull] at hb
            rcases List.mem_append.mp hb with hbp | hbar
            · exact hpre b hbp p0 (by simp)
            · rw [hmatch] at hbar
              exact hpassed b hbar
          have hane : passed ≠ [] := by
            rw [← hmatch]
            simp
          rw [humain]
          rcases hscope with hp | hp | ⟨ab, hab, hp⟩
          · -- p is one of the remaining points: no archive covers it
            have hagep : now - p0.Timestamp ≤ now - p.Timestamp := by
              rcases List.mem_cons.mp hp with heq | hps
              · rw [heq]
              · exact hagele p hps
            have hfin : finestCovering full (now - p.Timestamp) = none := by
              unfold finestCovering
              rw [List.find?_eq_none]
              intro b hb
              simp only [decide_eq_true_eq]
              have := hallfail b hb
              omega
            rw [hfin]
            simp only
            intro ab hab hpin
            rw [hacc2] at hab
            rcases List.mem_append.mp hab with haba | habf
            · exact hD2 p hp ab haba hpin
            · by_cases hsp : passed = [] ∨ cur = []
              · rw [if_pos hsp] at habf
                simp at habf
              · rw [if_neg hsp] at habf
                simp at habf
                rw [habf] at hpin
                simp only at hpin
                have hpc := (mem_sortDesc p cur).mp hpin
                have hple := (hcur p hpc).2.2
                have hamem : a ∈ full := by
                  rw [hfull]
                  simp
                have := hallfail a hamem
                omega
          · -- p sits in the bucket: it is flushed to `a` here
            have hfin : finestCovering full (now - p.Timestamp) = some a := by
              rw [hfull]
              unfold finestCovering
              apply find?_pre_first
              · intro b hb
                simp only [decide_eq_true_eq]
                have := (hcur p hp).2.1 b hb
                omega
              · exact decide_eq_true ((hcur p hp).2.2)
            rw [hfin]
            simp only
            have hcne : cur ≠ [] := by
              intro h
              rw [h] at hp
              simp at hp
            rw [hacc2, if_neg (not_or.mpr ⟨hane, hcne⟩), List.filter_append,
              acc_filter_none acc p (hD4 p hp)]
            simp [(mem_sortDesc p cur).mpr hp]
          · have hfin := hD1 ab hab p hp
            rw [hfin]
            simp only
            rw [hacc2, List.filter_append]
            have hflt : ((if passed = [] ∨ cur = [] then
                ([] : List (ArchiveInfo × List Point)) else [(a, sortDesc cur)]).filter
                (fun cd => decide (p ∈ cd.2))) = [] := by
              by_cases hsp : passed = [] ∨ cur = []
              · rw [if_pos hsp]
                rfl
              · rw [if_neg hsp]
                have hnotin : p ∉ sortDesc cur := by
                  intro hpc
                  exact hD4 p ((mem_sortDesc p cur).mp hpc) ab hab hp
                simp [hnotin]
            rw [hflt, List.append_nil]
            exact acc_filter_unique acc p ab hD5 hab hp
      | some a2rs2 =>
          rcases a2rs2 with ⟨a2, rs2⟩
          simp only at hmatch
          have hsplit := hmatch.1
          have hcover := hmatch.2
          have humain : umMain now (p0 :: ps) a rs cur acc =
              umMain now ps a2 rs2 (cur2 ++ [p0]) acc2 := by
            conv in umMain now (p0 :: ps) a rs cur acc => rw [umMain, htriple]
          have hfull2 : full = (pre ++ passed) ++ a2 :: rs2 := by
            rw [hfull, List.append_assoc, ← hsplit]
          have hamem : passed ≠ [] → a ∈ passed := by
            intro hne
            cases hpd : passed with
            | nil => exact absurd hpd hne
            | cons x xs =>
                rw [hpd] at hsplit
                simp only [List.cons_append, List.cons.injEq] at hsplit
                rw [hsplit.1]
                simp
          have hcurval : ∀ q ∈ cur2, q ∈ cur ∧ passed = [] := by
            intro q hq
            by_cases hpe : passed = []
            · rw [hcur2, if_pos hpe] at hq
              exact ⟨hq, hpe⟩
            · rw [hcur2, if_neg hpe] at hq
              simp at hq
          have hpre2 : ∀ b ∈ pre ++ passed, ∀ p' ∈ ps,
              b.Retention32 < now - p'.Timestamp := by
            intro b hb p' hp'
            rcases List.mem_append.mp hb with hbp | hbq
            · exact hpre b hbp p' (List.mem_cons_of_mem p0 hp')
            · have h1 := hpassed b hbq
              have h2 := hagele p' hp'
              omega
          have hcurinv2 : ∀ q ∈ cur2 ++ [p0], q.Timestamp ≤ now ∧
              (∀ b ∈ pre ++ passed, b.Retention32 < now - q.Timestamp) ∧
              now - q.Timestamp ≤ a2.Retention32 := by
            intro q hq
            rcases List.mem_append.mp hq with hq2 | hq0
            · obtain ⟨hqc, hpe⟩ := hcurval q hq2
              have ha2 : a = a2 ∧ rs = rs2 := by
                rw [hpe, List.nil_append] at hsplit
                simpa using hsplit
              refine ⟨(hcur q hqc).1, ?_, ?_⟩
              · intro b hb
                rcases List.mem_append.mp hb with hbp | hbq
                · exact (hcur q hqc).2.1 b hbp
                · rw [hpe] at hbq
                  simp at hbq
              · rw [← ha2.1]
                exact (hcur q hqc).2.2
            · simp at hq0
              rw [hq0]
              refine ⟨hp0now, ?_, hcover⟩
              intro b hb
              rcases List.mem_append.mp hb with hbp | hbq
              · exact hpre b hbp p0 (by simp)
              · exact hpassed b hbq
          have hcurage2 : ∀ q ∈ cur2 ++ [p0], ∀ p' ∈ ps,
              now - q.Timestamp ≤ now - p'.Timestamp := by
            intro q hq p' hp'
            rcases List.mem_append.mp hq with hq2 | hq0
            · exact hcurage q (hcurval q hq2).1 p' (List.mem_cons_of_mem p0 hp')
            · simp at hq0
              rw [hq0]
              exact hagele p' hp'
          have hD1b : ∀ ab ∈ acc2, ∀ q ∈ ab.2,
              finestCovering full (now - q.Timestamp) = some ab.1 := by
            intro ab hab q hq
            rw [hacc2] at hab
            rcases List.mem_append.mp hab with haba | habf
            · exact hD1 ab haba q hq
            · by_cases hsp : passed = [] ∨ cur = []
              · rw [if_pos hsp] at habf
                simp at habf
              · rw [if_neg hsp] at habf
                simp at habf
                rw [habf] at hq ⊢
                simp only at hq ⊢
                have hqc := (mem_sortDesc q cur).mp hq
                rw [hfull]
                unfold finestCovering
                apply find?_pre_first
                · intro b hb
                  simp only [decide_eq_true_eq]
                  have := (hcur q hqc).2.1 b hb
                  omega
                · exact decide_eq_true ((hcur q hqc).2.2)
          have hD2b : ∀ p' ∈ ps, ∀ ab ∈ acc2, p' ∉ ab.2 := by
            intro p' hp' ab hab hpin
            rw [hacc2] at hab
            rcases List.mem_append.mp hab with haba | habf
            · exact hD2 p' (List.mem_cons_of_mem p0 hp') ab haba hpin
            · by_cases hsp : passed = [] ∨ cur = []
              · rw [if_pos hsp] at habf
                simp at habf
              · rw [if_neg hsp] at habf
                simp at habf
                rw [habf] at hpin
                simp only at hpin
                have hpc := (mem_sortDesc p' cur).mp hpin
                have h1 := (hcur p' hpc).2.2
                have hane : passed ≠ [] := fun h => hsp (Or.inl h)
                have h2 := hpassed a (hamem hane)
                have h3 := hagele p' hp'
                omega
          have hD4b : ∀ q ∈ cur2 ++ [p0], ∀ ab ∈ acc2, q ∉ ab.2 := by
            intro q hq ab hab hpin
            rcases List.mem_append.mp hq with hq2 | hq0
            · obtain ⟨hqc, hpe⟩ := hcurval q hq2
              rw [hacc2, if_pos (Or.inl hpe), List.append_nil] at hab
              exact hD4 q hqc ab hab hpin
            · simp at hq0
              rw [hq0] at hpin
              rw [hacc2] at hab
              rcases List.mem_append.mp hab with haba | habf
              · exact hD2 p0 (by simp) ab haba hpin
              · by_cases hsp : passed = [] ∨ cur = []
                · rw [if_pos hsp] at habf
                  simp at habf
                · rw [if_neg hsp] at habf
                  simp at habf
                  rw [habf] at hpin
                  simp only at hpin
                  have hpc := (mem_sortDesc p0 cur).mp hpin
                  have h1 := (hcur p0 hpc).2.2
                  have hane : passed ≠ [] := fun h => hsp (Or.inl h)
                  have h2 := hpassed a (hamem hane)
                  omega
          have hD5b : List.Pairwise
              (fun ab1 ab2 => ∀ q, q ∈ ab1.2 → q ∉ ab2.2) acc2 := by
            rw [hacc2, List.pairwise_append]
            refine ⟨hD5, ?_, ?_⟩
            · by_cases hsp : passed = [] ∨ cur = []
              · rw [if_pos hsp]
                exact List.Pairwise.nil
              · rw [if_neg hsp]
                exact List.pairwise_singleton _ _
            · intro ab1 hab1 ab2 hab2 q hq1
              by_cases hsp : passed = [] ∨ cur = []
              · rw [if_pos hsp] at hab2
                simp at hab2
              · rw [if_neg hsp] at hab2
                simp at hab2
                rw [hab2]
                simp only
                intro hq2
                exact hD4 q ((mem_sortDesc q cur).mp hq2) ab1 hab1 hq1
          have hscope2 : p ∈ ps ∨ p ∈ cur2 ++ [p0] ∨ ∃ ab ∈ acc2, p ∈ ab.2 := by
            rcases hscope with hp | hp | ⟨ab, hab, hp⟩
            · rcases List.mem_cons.mp hp with heq | hps
              · right
                left
                simp [heq]
              · left
                exact hps
            · by_cases hpe : passed = []
              · right
                left
                rw [List.mem_append]
                left
                rw [hcur2, if_pos hpe]
                exact hp
              · right
                right
                have hcne : cur ≠ [] := by
                  intro h
                  rw [h] at hp
                  simp at hp
                refine ⟨(a, sortDesc cur), ?_, (mem_sortDesc p cur).mpr hp⟩
                rw [hacc2, if_neg (not_or.mpr ⟨hpe, hcne⟩)]
                simp
            · exact Or.inr (Or.inr ⟨ab,
                by rw [hacc2]; exact List.mem_append_left _ hab, hp⟩)
          rw [humain]
          exact ih a2 rs2 (cur2 ++ [p0]) acc2 (pre ++ passed) hfull2
            (List.pairwise_cons.mp hsortPW).2
            (fun p' hp' => hpast p' (List.mem_cons_of_mem p0 hp')) hnow
            hpre2 hcurinv2 hcurage2 hD1b hD2b hD4b hD5b p hscope2

/-- C6 (amended): for a batch ordered newest-first (non-increasing
timestamps, none in the future), every point some archive covers is
flushed exactly once, to the first — finest, the table being sorted by
resolution — archive whose retention reaches its age, and every point
older than all retentions appears in no flush. -/
theorem updateMany_sorted_partition (a0 : ArchiveInfo) (rest : List ArchiveInfo)
    (now : Nat) (points : List Point)
    (flushes : List (ArchiveInfo × List Point))
    (hres : updateManyFlushes (a0 :: rest) now points = Except.ok flushes)
    (hsorted : List.Chain' (fun p q : Point => q.Timestamp ≤ p.Timestamp) points)
    (hpast : ∀ p ∈ points, p.Timestamp ≤ now) (hnow : now < U32) :
    ∀ p ∈ points,
      (match finestCovering (a0 :: rest) (now - p.Timestamp) with
       | some ar => (flushes.filter (fun ab => decide (p ∈ ab.2))).map Prod.fst = [ar]
       | none => ∀ ab ∈ flushes, p ∉ ab.2) := by
  intro p hp
  have hflush : flushes = umMain now points a0 rest [] [] := by
    unfold updateManyFlushes at hres
    exact (Except.ok.inj hres).symm
  have hPW := pairwise_of_chain' points hsorted
    (fun x y z h1 h2 => Nat.le_trans h2 h1)
  rw [hflush]
  exact umMain_spec now (a0 :: rest) points a0 rest [] [] []
    rfl hPW hpast hnow
    (by simp) (by simp) (by simp) (by simp) (by simp) (by simp)
    List.Pairwise.nil p (Or.inl hp)

/-- C6 counterexample: a batch whose first point is older than every
retention; the source's `break PointLoop` drops the whole remainder,
including a fresh point (age 5, covered by the 600s-retention archive 0)
that the claim requires to be written to that archive.  The result is no
flush at all. -/
theorem updateMany_drops_covered_point :
    updateManyFlushes [exArchive0, exArchive1] 10000 [⟨6000, 1⟩, ⟨9995, 2⟩] =
      Except.ok [] ∧
    sub32 10000 9995 ≤ exArchive0.Retention32 :=
  ⟨rfl, by decide⟩

/-- A three-point newest-first batch: ages 5, 1000 and 5000. -/
def exBatchC6 : List Point := [⟨9995, 1⟩, ⟨9000, 2⟩, ⟨5000, 3⟩]

/-- Witness for `updateMany_sorted_partition`: the fresh point lands in
archive 0, the middle one in archive 1, the stale one nowhere. -/
theorem updateMany_sorted_partition_witness :
    (updateManyFlushes [exArchive0, exArchive1] 10000 exBatchC6 =
        Except.ok [(exArchive0, [⟨9995, 1⟩]), (exArchive1, [⟨9000, 2⟩])] ∧
      List.Chain' (fun p q : Point => q.Timestamp ≤ p.Timestamp) exBatchC6 ∧
      (∀ p ∈ exBatchC6, p.Timestamp ≤ 10000) ∧ 10000 < U32) ∧
    (∀ p ∈ exBatchC6,
      (match finestCovering [exArchive0, exArchive1] (10000 - p.Timestamp) with
       | some ar =>
          (([(exArchive0, [⟨9995, 1⟩]), (exArchive1, [⟨9000, 2⟩])].filter
            (fun ab => decide (p ∈ ab.2))).map Prod.fst) = [ar]
       | none => ∀ ab ∈ [(exArchive0, [(⟨9995, 1⟩ : Point)]),
          (exArchive1, [⟨9000, 2⟩])], p ∉ ab.2)) :=
  ⟨⟨rfl, List.chain'_cons.mpr ⟨by decide, List.chain'_cons.mpr
        ⟨by decide, List.chain'_singleton _⟩⟩, by decide, by decide⟩,
    updateMany_sorted_partition exArchive0 [exArchive1] 10000 exBatchC6
      [(exArchive0, [⟨9995, 1⟩]), (exArchive1, [⟨9000, 2⟩])]
      rfl (List.chain'_cons.mpr ⟨by decide, List.chain'_cons.mpr
        ⟨by decide, List.chain'_singleton _⟩⟩) (by decide) (by decide)⟩

/-- A file whose metadata block, reinterpreted as a point record the way
`readPoint(0)` does, has first word 2 (aggregation method SUM), and whose
archives are empty. -/
def exFileC3 : WFile := fun q => if q = 0 then ⟨2, 0⟩ else ⟨0, 0⟩

/-- C3: `pointOffset` does not read the base point at `archive.offset`:
it reads absolute file offset 0 (the metadata block).  On a file whose
archive at offset 40 has never been written (base slot timestamp 0) but
whose metadata first word is 2, the source returns offset 508, while the
spec's computation — base read at `archive.offset`, empty archive —
returns `archive.offset = 40`. -/
theorem pointOffset_reads_file_start :
    pointOffset exFileC3 exArchive0 1000 = Except.ok 508 ∧
    (readPoint exFileC3 exArchive0.Offset).Timestamp = 0 ∧
    pointOffsetSpec exFileC3 exArchive0 1000 = 40 ∧
    (508 : Nat) ≠ 40 := by
  refine ⟨rfl, rfl, rfl, by decide⟩

/-- The archive list of the spec's scenario 1 (offsets are assigned by
`Create` itself, so the `Offset` fields given here are irrelevant). -/
def exArchivesC5 : List ArchiveInfo := [⟨0, 10, 60⟩, ⟨0, 60, 60⟩]

/-- C5: dense creation yields the claimed
`16 + 12·archive_count + Σ points·12 = 1480` bytes, but sparse creation
yields only 1440 bytes: the sparse branch seeks with whence 0 (absolute)
to `archiveOffsetPointer - headerSize - 1 = Σ - 1`, so the file ends at
byte Σ instead of `headerSize + Σ`. -/
theorem create_sparse_file_too_short :
    createFileLength exArchivesC5 false = 1480 ∧
    createFileLength exArchivesC5 true = 1440 ∧
    16 + 12 * 2 + (60 * 12 + 60 * 12) = 1480 ∧
    (1440 : Nat) ≠ 1480 := by
  refine ⟨by decide, by decide, by decide, by decide⟩

/-- The header of the running example: SUM aggregation, max retention
3600s, x-files-factor 1/2, the two archives above. -/
def exHeader : Header := ⟨⟨2, 3600, 1/2, 2⟩, [exArchive0, exArchive1]⟩

/-- C1: for an in-retention point (age 10 < 3600) the selection loop of
`Update` leaves the shadowed outer `currentArchive` zero-valued and
`lowerArchives` empty — not the finest covering archive `exArchive0`
with chain `[exArchive1]` — and `Update` then panics quantizing by the
zero archive's `SecondsPerPoint = 0`. -/
theorem update_selects_zero_archive :
    updateSelect exHeader.Archives 10 = (⟨0, 0, 0⟩, []) ∧
    (⟨0, 0, 0⟩ : ArchiveInfo) ≠ exArchive0 ∧
    update exHeader zeroFile 100000 ⟨99990, 15/2⟩ =
      Except.error .panicDivideByZero := by
  refine ⟨by decide, by decide, rfl⟩

/-- A file whose higher archive stores all six 10-second slots of the
lower interval `[99960, 100020)`, each with its correct quantized
timestamp (values 1..6); metadata first word 2 at offset 0. -/
def exFileC2 : WFile := fun q =>
  if q = 0 then ⟨2, 0⟩
  else if q = 460 then ⟨99960, 1⟩
  else if q = 472 then ⟨99970, 2⟩
  else if q = 484 then ⟨99980, 3⟩
  else if q = 496 then ⟨99990, 4⟩
  else if q = 508 then ⟨100000, 5⟩
  else if q = 520 then ⟨100010, 6⟩
  else ⟨0, 0⟩

/-- The six records `propagate` reads from `exFileC2` for the interval
starting at 99960. -/
def exPointsC2 : List Point :=
  [⟨99960, 1⟩, ⟨99970, 2⟩, ⟨99980, 3⟩, ⟨99990, 4⟩, ⟨100000, 5⟩, ⟨100010, 6⟩]

/-- C2: with all `N = 6` slots of the lower interval populated with
their exact expected timestamps (first conjunct) and
`x_files_factor = 1/2 ≤ 6/6` (second conjunct), the claim requires an
aggregate write; the source's slot walk (`i += 2` against an interval
advanced by one step per iteration) recognises only slot 0, computes
coverage 1/6 < 1/2, writes nothing and returns false. -/
theorem propagate_misses_populated_slots :
    (∀ i, i < 6 → (exFileC2 (460 + 12 * i)).Timestamp = 99960 + 10 * i) ∧
    (1 : ℚ) / 2 ≤ 6 / 6 ∧
    propagate exHeader.Metadata exFileC2 99960 exArchive0 exArchive1 =
      Except.ok (false, none, exFileC2) := by
  refine ⟨by decide, by norm_num, ?_⟩
  have h1 : propagateRead exFileC2 99960 exArchive0 exArchive1 =
      Except.ok (99960, exPointsC2) := rfl
  have h2 : neighborLoop exArchive0.SecondsPerPoint exPointsC2 99960 =
      [⟨99960, 1⟩] := rfl
  unfold propagate
  rw [h1, except_bind_ok]
  simp only [h2]
  rw [if_pos (Or.inr (by norm_num [exHeader, exPointsC2]))]
  rfl

/-- C4: a point whose age equals `MaxRetention` (3600) is rejected, but
`Update` returns `nil` — no `StalePoint` error — and leaves the file
untouched (the source's guard body is `// TODO: Return an error` plus a
bare `return`); a point one second younger passes the guard (and then
hits the C1 selection panic). -/
theorem update_stale_point_silent :
    update exHeader zeroFile 100000 ⟨96400, 1⟩ = Except.ok (none, zeroFile) ∧
    update exHeader zeroFile 100000 ⟨96401, 1⟩ =
      Except.error .panicDivideByZero := by
  refine ⟨rfl, rfl⟩

/-- A file giving exactly the 3-of-6 coverage the stepped slot walk can
see (slots at even indices carry the timestamps the walk compares them
against), so propagation proceeds to aggregation. -/
def exFileC9 : WFile := fun q =>
  if q = 0 then ⟨2, 0⟩
  else if q = 460 then ⟨99960, 1⟩
  else if q = 484 then ⟨99970, 2⟩
  else if q = 508 then ⟨99980, 3⟩
  else ⟨0, 0⟩

/-- Metadata with an invalid aggregation method (99), so `aggregate`
fails with a genuine aggregation error. -/
def exMetaBadAgg : Metadata := ⟨99, 3600, 1/2, 2⟩

/-- The six records `propagate` reads from `exFileC9`. -/
def exPointsC9 : List Point :=
  [⟨99960, 1⟩, ⟨0, 0⟩, ⟨99970, 2⟩, ⟨0, 0⟩, ⟨99980, 3⟩, ⟨0, 0⟩]

/-- C9: a propagation step that produces an aggregation error returns it
with `result = false` (first conjunct); the propagation loop of `Update`
tests `!result` before `e != nil`, so it breaks and surfaces NO error to
the caller (second conjunct: the chain returns the initial `nil`). -/
theorem propagate_error_swallowed :
    propagate exMetaBadAgg exFileC9 99960 exArchive0 exArchive1 =
      Except.ok (false, some (.goError "unknown aggregation function"), exFileC9) ∧
    propagateChain exMetaBadAgg 99960 none exArchive0 [exArchive1] exFileC9 =
      Except.ok (none, exFileC9) := by
  have h1 : propagateRead exFileC9 99960 exArchive0 exArchive1 =
      Except.ok (99960, exPointsC9) := rfl
  have h2 : neighborLoop exArchive0.SecondsPerPoint exPointsC9 99960 =
      [⟨99960, 1⟩, ⟨99970, 2⟩, ⟨99980, 3⟩] := rfl
  have hp : propagate exMetaBadAgg exFileC9 99960 exArchive0 exArchive1 =
      Except.ok (false, some (.goError "unknown aggregation function"), exFileC9) := by
    unfold propagate
    rw [h1, except_bind_ok]
    simp only [h2]
    rw [if_neg (by norm_num [exMetaBadAgg, exPointsC9])]
    rfl
  refine ⟨hp, ?_⟩
  simp only [propagateChain]
  rw [hp, except_bind_ok]
  rfl

/-- C10: whenever the slot walk collects zero neighbor points,
`propagate` returns `(false, nil)` and the unchanged file before ever
calling `aggregate`, so `aggregate` is only reached with a non-empty
point list. -/
theorem propagate_empty_neighbors_no_write (meta : Metadata) (f : WFile)
    (timestamp : Nat) (higher lower : ArchiveInfo) (start : Nat) (pts : List Point)
    (hread : propagateRead f timestamp higher lower = Except.ok (start, pts))
    (hempty : neighborLoop higher.SecondsPerPoint pts start = []) :
    propagate meta f timestamp higher lower = Except.ok (false, none, f) := by
  unfold propagate
  rw [hread, except_bind_ok]
  simp only [hempty, List.length_nil]
  rw [if_pos (Or.inl trivial)]
  rfl

/-- A record write run leaves every offset below its start untouched. -/
theorem writeRecords_eq_of_lt (l : List Point) (f : WFile) (offset q : Nat)
    (hq : q < offset) : writeRecords f offset l q = f q := by
  induction l generalizing f offset with
  | nil => rfl
  | cons p rest ih =>
      show writeRecords (fun r => if r = offset then p else f r) (offset + pointSize) rest q = f q
      rw [ih _ _ (by simp only [pointSize]; omega)]
      simp only [if_neg (Nat.ne_of_lt hq)]

/-- A record write run leaves every offset at or past its end untouched. -/
theorem writeRecords_eq_of_ge (l : List Point) (f : WFile) (offset q : Nat)
    (hq : offset + pointSize * l.length ≤ q) : writeRecords f offset l q = f q := by
  induction l generalizing f offset with
  | nil => rfl
  | cons p rest ih =>
      simp only [List.length_cons, pointSize] at hq
      show writeRecords (fun r => if r = offset then p else f r) (offset + pointSize) rest q = f q
      rw [ih _ _ (by simp only [pointSize]; omega)]
      have hne : q ≠ offset := by omega
      simp only [if_neg hne]

/-- Reading back the `i`-th record of a write run yields the `i`-th
point written. -/
theorem writeRecords_get (l : List Point) (f : WFile) (offset i : Nat)
    (hi : i < l.length) :
    writeRecords f offset l (offset + pointSize * i) = l.get ⟨i, hi⟩ := by
  induction l generalizing f offset i with
  | nil => exact absurd hi (by simp)
  | cons p rest ih =>
      cases i with
      | zero =>
          show writeRecords (fun r => if r = offset then p else f r)
            (offset + pointSize) rest (offset + pointSize * 0) = p
          rw [writeRecords_eq_of_lt _ _ _ _ (by simp only [pointSize]; omega)]
          simp
      | succ j =>
          show writeRecords (fun r => if r = offset then p else f r)
            (offset + pointSize) rest (offset + pointSize * (j + 1)) = (p :: rest).get ⟨j + 1, hi⟩
          have harith : offset + pointSize * (j + 1) = (offset + pointSize) + pointSize * j := by
            ring
          rw [harith, ih _ _ j (by simpa using hi)]
          rfl

/-- The split structure of `writePoints` once the capacity check passes
and the first point's offset is known. -/
theorem writePoints_eq (f : WFile) (archive : ArchiveInfo) (p0 : Point)
    (rest : List Point) (off : Nat)
    (hlen : (p0 :: rest).length ≤ archive.Points)
    (hoff : pointOffset f archive p0.Timestamp = Except.ok off) :
    writePoints f archive (p0 :: rest) =
      (if sub32 archive.end32 off / pointSize < (p0 :: rest).length then
        Except.ok (none, writeRecords
          (writeRecords f off ((p0 :: rest).take (sub32 archive.end32 off / pointSize)))
          archive.Offset ((p0 :: rest).drop (sub32 archive.end32 off / pointSize)))
      else
        Except.ok (none, writeRecords f off (p0 :: rest))) := by
  unfold writePoints
  rw [if_neg (by omega)]
  show (pointOffset f archive p0.Timestamp >>= fun offset => _) = _
  rw [hoff, except_bind_ok]
  rfl

/-- C7: for a non-empty batch of at most `archive.Points` records whose
first-point offset is `archive.Offset + 12·s`, if fewer than `|points|`
slots remain before `archive.end()` (i.e. `|points| > archive.Points - s`)
then the first `archive.Points - s` records land consecutively at that
offset and the remaining ones land consecutively from `archive.Offset`;
otherwise all records land consecutively at the offset. -/
theorem writePoints_wraparound (f : WFile) (archive : ArchiveInfo)
    (p0 : Point) (rest : List Point) (off s : Nat)
    (hlen : (p0 :: rest).length ≤ archive.Points)
    (hoff : pointOffset f archive p0.Timestamp = Except.ok off)
    (halign : off = archive.Offset + pointSize * s)
    (hs : s < archive.Points)
    (hfit : archive.Offset + pointSize * archive.Points < U32) :
    ∃ g, writePoints f archive (p0 :: rest) = Except.ok (none, g) ∧
      (∀ i, (hi : i < (p0 :: rest).length) → i < archive.Points - s →
        g (off + pointSize * i) = (p0 :: rest).get ⟨i, hi⟩) ∧
      (∀ i, (hi : i < (p0 :: rest).length) → archive.Points - s ≤ i →
        g (archive.Offset + pointSize * (i - (archive.Points - s))) =
          (p0 :: rest).get ⟨i, hi⟩) := by
  have hsize : archive.size32 = archive.Points * pointSize := by
    unfold ArchiveInfo.size32
    apply mul32_small
    simp only [pointSize] at hfit ⊢
    omega
  have hend : archive.end32 = archive.Offset + archive.Points * pointSize := by
    unfold ArchiveInfo.end32
    rw [hsize]
    apply add32_small
    simp only [pointSize] at hfit ⊢
    omega
  have hcap : sub32 archive.end32 off / pointSize = archive.Points - s := by
    rw [hend, halign, sub32_of_le _ _ (by simp only [pointSize]; omega)
      (by simp only [pointSize] at hfit ⊢; omega)]
    simp only [pointSize]
    omega
  rw [writePoints_eq f archive p0 rest off hlen hoff, hcap]
  by_cases hw : archive.Points - s < (p0 :: rest).length
  · rw [if_pos hw]
    refine ⟨_, rfl, ?_, ?_⟩
    · intro i hi hicap
      have htlen : ((p0 :: rest).take (archive.Points - s)).length = archive.Points - s := by
        simp only [List.length_take]
        omega
      have hdlen : ((p0 :: rest).drop (archive.Points - s)).length =
          (p0 :: rest).length - (archive.Points - s) := by
        simp
      rw [writeRecords_eq_of_ge _ _ _ _ (by
        rw [hdlen, halign]
        simp only [pointSize]
        omega)]
      have hget := writeRecords_get ((p0 :: rest).take (archive.Points - s)) f off i
        (by rw [htlen]; omega)
      rw [hget]
      simp [List.getElem_take]
    · intro i hi hicap
      have hdlen : ((p0 :: rest).drop (archive.Points - s)).length =
          (p0 :: rest).length - (archive.Points - s) := by
        simp
      have hget := writeRecords_get ((p0 :: rest).drop (archive.Points - s))
        (writeRecords f off ((p0 :: rest).take (archive.Points - s)))
        archive.Offset (i - (archive.Points - s)) (by rw [hdlen]; omega)
      rw [hget]
      have hidx : archive.Points - s + (i - (archive.Points - s)) = i := by omega
      simp only [List.get_eq_getElem, List.getElem_drop, hidx]
  · rw [if_neg hw]
    refine ⟨_, rfl, ?_, ?_⟩
    · intro i hi hicap
      exact writeRecords_get (p0 :: rest) f off i hi
    · intro i hi hicap
      omega

/-- A 5-slot, 10s archive for the wraparound witness. -/
def exArchiveC7 : ArchiveInfo := ⟨40, 10, 5⟩

/-- A file whose base record (read at offset 0 by `pointOffset`) carries
timestamp 100, so the first point below lands at ring slot 3. -/
def exFileC7 : WFile := fun q => if q = 0 then ⟨100, 0⟩ else ⟨0, 0⟩

/-- Three contiguous points starting at t = 130. -/
def exPointsC7 : List Point := [⟨130, 1⟩, ⟨140, 2⟩, ⟨150, 3⟩]

/-- Witness for `writePoints_wraparound`: slot 3 of a 5-slot archive
leaves capacity 2 before `archive.end()`, so a 3-point run wraps: two
records at offsets 76 and 88, the third at `archive.Offset = 40`. -/
theorem writePoints_wraparound_witness :
    (exPointsC7.length ≤ exArchiveC7.Points ∧
     pointOffset exFileC7 exArchiveC7 130 = Except.ok 76 ∧
     (76 : Nat) = exArchiveC7.Offset + pointSize * 3 ∧
     (3 : Nat) < exArchiveC7.Points ∧
     exArchiveC7.Offset + pointSize * exArchiveC7.Points < U32) ∧
    (∃ g, writePoints exFileC7 exArchiveC7 exPointsC7 = Except.ok (none, g) ∧
      (∀ i, (hi : i < exPointsC7.length) → i < exArchiveC7.Points - 3 →
        g (76 + pointSize * i) = exPointsC7.get ⟨i, hi⟩) ∧
      (∀ i, (hi : i < exPointsC7.length) → exArchiveC7.Points - 3 ≤ i →
        g (exArchiveC7.Offset + pointSize * (i - (exArchiveC7.Points - 3))) =
          exPointsC7.get ⟨i, hi⟩)) :=
  ⟨⟨by decide, rfl, by decide, by decide, by decide⟩,
   writePoints_wraparound exFileC7 exArchiveC7 ⟨130, 1⟩ [⟨140, 2⟩, ⟨150, 3⟩] 76 3
     (by decide) rfl (by decide) (by decide) (by decide)⟩

/-- Witness for `propagate_empty_neighbors_no_write`: on the all-zero
file the six slots read all carry timestamp 0, none matches the interval
`[99960, 100020)`, and propagation returns false with no write. -/
theorem propagate_empty_neighbors_no_write_witness :
    propagateRead zeroFile 99960 exArchive0 exArchive1 =
      Except.ok (99960, List.replicate 6 ⟨0, 0⟩) ∧
    neighborLoop exArchive0.SecondsPerPoint (List.replicate 6 ⟨0, 0⟩) 99960 = [] ∧
    propagate exHeader.Metadata zeroFile 99960 exArchive0 exArchive1 =
      Except.ok (false, none, zeroFile) :=
  ⟨rfl, rfl,
    propagate_empty_neighbors_no_write exHeader.Metadata zeroFile 99960
      exArchive0 exArchive1 99960 (List.replicate 6 ⟨0, 0⟩) rfl rfl⟩

end WhisperGo
